import Mathlib

/-!
Verification of the Cloudflare multi-zone TLS statistics pipeline (q3.py,
with the response handling of q1.py for comparison).

Timestamps are modelled as natural numbers (seconds since the epoch):
the Python code manipulates timezone-aware datetimes only through
ordering, addition of a fixed span in seconds, and `min`, all of which
this embedding preserves.  Python `dict`s are modelled as insertion
ordered association lists, matching CPython's dictionary semantics:
`d[k] += v` updates in place, `d[k] = v` on a fresh key appends at the
end, and two dicts are equal exactly when they hold the same key/value
pairs irrespective of insertion order (hence mapping-level statements
are phrased through lookups).
-/

namespace CFTLS

/-- Embedding of `chunk_time_range` (q3.py lines 34-63): starting at
`start`, repeatedly emit a window ending at `min (current + maxSpan) end`
and advance to that end, while `current < end`.  The Python loop does not
terminate when `max_chunk_seconds ≤ 0`; the guard `0 < maxSpan` restricts
the embedding to the inputs where the source function returns. -/
def chunk_time_range (start stop maxSpan : Nat) : List (Nat × Nat) :=
  if _h : start < stop ∧ 0 < maxSpan then
    (start, min (start + maxSpan) stop) ::
      chunk_time_range (min (start + maxSpan) stop) stop maxSpan
  else
    []
termination_by stop - start
decreasing_by omega

theorem chunk_time_range_eq_nil (start stop maxSpan : Nat)
    (h : stop ≤ start) : chunk_time_range start stop maxSpan = [] := by
  rw [chunk_time_range, dif_neg]
  omega

theorem chunk_time_range_eq_cons (start stop maxSpan : Nat)
    (h1 : start < stop) (h2 : 0 < maxSpan) :
    chunk_time_range start stop maxSpan =
      (start, min (start + maxSpan) stop) ::
        chunk_time_range (min (start + maxSpan) stop) stop maxSpan := by
  rw [chunk_time_range]
  simp only [dif_pos (And.intro h1 h2)]

theorem chunk_mem_valid (s e K : Nat) :
    ∀ p ∈ chunk_time_range s e K,
      s ≤ p.1 ∧ p.1 < p.2 ∧ p.2 ≤ e ∧ p.2 - p.1 ≤ K := by
  induction s, e, K using chunk_time_range.induct with
  | case1 s e K h ih =>
    intro p hp
    rw [chunk_time_range_eq_cons s e K h.1 h.2] at hp
    rcases List.mem_cons.1 hp with rfl | hp
    · refine ⟨le_refl _, ?_, ?_, ?_⟩ <;> simp <;> omega
    · have hv := ih p hp
      have hm : min (s + K) e ≤ e := min_le_right _ _
      exact ⟨le_trans (by omega) hv.1, hv.2.1, hv.2.2.1, hv.2.2.2⟩
  | case2 s e K h =>
    intro p hp
    rw [chunk_time_range, dif_neg h] at hp
    simp at hp

theorem chunk_chain (s e K : Nat) :
    List.Chain' (fun a b : Nat × Nat => a.2 = b.1) (chunk_time_range s e K) := by
  induction s, e, K using chunk_time_range.induct with
  | case1 s e K h ih =>
    rw [chunk_time_range_eq_cons s e K h.1 h.2]
    refine List.chain'_cons'.2 ⟨?_, ih⟩
    intro b hb
    by_cases hm : min (s + K) e < e
    · rw [chunk_time_range_eq_cons _ _ _ hm h.2] at hb
      simp only [List.head?_cons, Option.mem_def, Option.some.injEq] at hb
      subst hb
      rfl
    · rw [chunk_time_range_eq_nil _ _ _ (by omega)] at hb
      simp at hb
  | case2 s e K h =>
    rw [chunk_time_range, dif_neg h]
    exact List.chain'_nil

theorem chunk_pairwise (s e K : Nat) :
    List.Pairwise (fun a b : Nat × Nat => a.2 ≤ b.1) (chunk_time_range s e K) := by
  induction s, e, K using chunk_time_range.induct with
  | case1 s e K h ih =>
    rw [chunk_time_range_eq_cons s e K h.1 h.2]
    refine List.pairwise_cons.2 ⟨?_, ih⟩
    intro b hb
    exact (chunk_mem_valid _ _ _ b hb).1
  | case2 s e K h =>
    rw [chunk_time_range, dif_neg h]
    exact List.Pairwise.nil

theorem chunk_getLast (s e K : Nat) (p : Nat × Nat)
    (hp : (chunk_time_range s e K).getLast? = some p) : p.2 = e := by
  induction s, e, K using chunk_time_range.induct with
  | case1 s e K h ih =>
    rw [chunk_time_range_eq_cons s e K h.1 h.2] at hp
    rcases hrest : chunk_time_range (min (s + K) e) e K with _ | ⟨q, rest⟩
    · rw [hrest] at hp
      simp only [List.getLast?_singleton, Option.some.injEq] at hp
      subst hp
      by_cases hm : min (s + K) e < e
      · rw [chunk_time_range_eq_cons _ _ _ hm h.2] at hrest
        exact absurd hrest (List.cons_ne_nil _ _)
      · simp only []
        omega
    · rw [hrest, List.getLast?_cons_cons] at hp
      exact ih (by rw [hrest]; exact hp)
  | case2 s e K h =>
    rw [chunk_time_range, dif_neg h] at hp
    simp at hp

theorem chunk_length (s e K : Nat) (hK : 0 < K) :
    (chunk_time_range s e K).length = (e - s + K - 1) / K := by
  induction s, e, K using chunk_time_range.induct with
  | case1 s e K h ih =>
    rw [chunk_time_range_eq_cons s e K h.1 h.2, List.length_cons, ih hK]
    rcases le_or_lt e (s + K) with hse | hse
    · have hm : min (s + K) e = e := by omega
      have h3 : e - e + K - 1 = K - 1 := by omega
      have h1 : (K - 1) / K = 0 := Nat.div_eq_of_lt (by omega)
      have h2 : (e - s + K - 1) / K = 1 :=
        Nat.div_eq_of_lt_le (by omega) (by omega)
      rw [hm, h3, h1, h2]
    · have hm : min (s + K) e = s + K := by omega
      have h3 : e - (s + K) + K - 1 = (e - s - 1 - K) + K := by omega
      have h4 : e - s + K - 1 = (e - s - 1) + K := by omega
      have h5 : e - s - 1 = (e - s - 1 - K) + K := by omega
      rw [hm, h3, Nat.add_div_right _ h.2]
      conv_rhs => rw [h4, Nat.add_div_right _ h.2, h5, Nat.add_div_right _ h.2]
  | case2 s e K h =>
    rw [chunk_time_range, dif_neg h, List.length_nil]
    have h3 : e - s + K - 1 = K - 1 := by omega
    rw [h3, Nat.div_eq_of_lt (by omega)]

theorem chunk_cover (s e K : Nat) (hK : 0 < K) (t : Nat) :
    (s ≤ t ∧ t < e) ↔ ∃ p ∈ chunk_time_range s e K, p.1 ≤ t ∧ t < p.2 := by
  induction s, e, K using chunk_time_range.induct with
  | case1 s e K h ih =>
    rw [chunk_time_range_eq_cons s e K h.1 h.2]
    constructor
    · rintro ⟨hst, hte⟩
      by_cases htm : t < min (s + K) e
      · exact ⟨(s, min (s + K) e), List.mem_cons_self _ _, hst, htm⟩
      · obtain ⟨p, hp, hpt⟩ := (ih hK).1 ⟨by omega, hte⟩
        exact ⟨p, List.mem_cons_of_mem _ hp, hpt⟩
    · rintro ⟨p, hp, hp1, hp2⟩
      rcases List.mem_cons.1 hp with rfl | hp
      · simp only [] at hp1 hp2
        constructor
        · exact hp1
        · have := min_le_right (s + K) e
          omega
      · have hme := (ih hK).2 ⟨p, hp, hp1, hp2⟩
        have : s ≤ min (s + K) e := by omega
        exact ⟨by omega, hme.2⟩
  | case2 s e K h =>
    rw [chunk_time_range, dif_neg h]
    simp only [List.not_mem_nil, false_and, exists_false, iff_false, not_and,
      not_lt, exists_prop]
    omega

/-- C1: for start < end and positive maxSpan, `chunk_time_range` returns an
ordered sequence of half-open windows that is contiguous (each window's start
equals the previous window's end), non-overlapping, each window of length at
most `maxSpan`, beginning at `start`, ending at `end`, with exactly
`ceil((end-start)/maxSpan)` windows, whose union is exactly `[start, end)`. -/
theorem chunk_time_range_spec (start stop maxSpan : Nat)
    (hlt : start < stop) (hK : 0 < maxSpan) :
    List.Chain' (fun a b : Nat × Nat => a.2 = b.1)
      (chunk_time_range start stop maxSpan) ∧
    List.Pairwise (fun a b : Nat × Nat => a.2 ≤ b.1)
      (chunk_time_range start stop maxSpan) ∧
    (∀ p ∈ chunk_time_range start stop maxSpan,
      p.1 < p.2 ∧ p.2 - p.1 ≤ maxSpan) ∧
    (chunk_time_range start stop maxSpan).head? =
      some (start, min (start + maxSpan) stop) ∧
    (∀ p, (chunk_time_range start stop maxSpan).getLast? = some p →
      p.2 = stop) ∧
    (chunk_time_range start stop maxSpan).length =
      (stop - start + maxSpan - 1) / maxSpan ∧
    (∀ t, (start ≤ t ∧ t < stop) ↔
      ∃ p ∈ chunk_time_range start stop maxSpan, p.1 ≤ t ∧ t < p.2) := by
  refine ⟨chunk_chain _ _ _, chunk_pairwise _ _ _, ?_, ?_, ?_,
    chunk_length _ _ _ hK, chunk_cover _ _ _ hK⟩
  · intro p hp
    have hv := chunk_mem_valid _ _ _ p hp
    exact ⟨hv.2.1, hv.2.2.2⟩
  · rw [chunk_time_range_eq_cons _ _ _ hlt hK]
    rfl
  · intro p hp
    exact chunk_getLast _ _ _ p hp

theorem chunk_time_range_spec_witness :
    (chunk_time_range 0 5 2).length = 3 :=
  (chunk_time_range_spec 0 5 2 (by decide) (by decide)).2.2.2.2.2.1

/-- C4 (counterexample): on an inverted range (start ≥ end) `chunk_time_range`
returns normally with the empty list; no `InvalidRangeError` (or any failure)
exists in the source, refuting the claim that it fails on such input. -/
theorem chunk_time_range_inverted_counterexample :
    chunk_time_range 5 3 10 = [] :=
  chunk_time_range_eq_nil 5 3 10 (by decide)

/-- C4 (amended): for every input with start ≥ end the Time Chunker returns
normally with the empty window list. -/
theorem chunk_time_range_inverted (start stop maxSpan : Nat)
    (h : stop ≤ start) : chunk_time_range start stop maxSpan = [] :=
  chunk_time_range_eq_nil start stop maxSpan h

theorem chunk_time_range_inverted_witness :
    chunk_time_range 7 7 259200 = [] :=
  chunk_time_range_inverted 7 7 259200 (by decide)

/-! ### Python dictionaries as insertion-ordered association lists -/

/-- First-occurrence lookup, `d[k]` / `k in d`: `none` models a missing key. -/
def dictGet (d : List (String × Int)) (k : String) : Option Int :=
  match d with
  | [] => none
  | (k', v) :: rest => if k' = k then some v else dictGet rest k

/-- Lookup with default 0, the value a protocol label contributes. -/
def dictGetD (d : List (String × Int)) (k : String) : Int :=
  (dictGet d k).getD 0

/-- The dictionary update `if k in d: d[k] += v else: d[k] = v` of the
aggregation loops: update in place when the key exists, append at the end
otherwise (CPython insertion order). -/
def dictIncr (d : List (String × Int)) (k : String) (v : Int) :
    List (String × Int) :=
  match d with
  | [] => [(k, v)]
  | (k', v') :: rest =>
      if k' = k then (k', v' + v) :: rest else (k', v') :: dictIncr rest k v

/-- Embedding of `aggregate_tls_stats` (q3.py lines 352-371): fold every
(protocol, count) pair of every statistics dictionary into one dictionary. -/
def aggregate_tls_stats (stats_list : List (List (String × Int))) :
    List (String × Int) :=
  stats_list.foldl
    (fun aggregated stats =>
      stats.foldl (fun a p => dictIncr a p.1 p.2) aggregated) []

/-- Total count contributed to key `k` by a list of pairs. -/
def sumAt (ps : List (String × Int)) (k : String) : Int :=
  match ps with
  | [] => 0
  | p :: rest => (if k = p.1 then p.2 else 0) + sumAt rest k

theorem dictGet_incr (d : List (String × Int)) (k : String) (v : Int)
    (k' : String) :
    dictGet (dictIncr d k v) k' =
      if k' = k then some (dictGetD d k + v) else dictGet d k' := by
  induction d with
  | nil =>
    by_cases h : k' = k
    · subst h
      simp [dictIncr, dictGet, dictGetD]
    · have h2 : ¬(k = k') := fun hh => h hh.symm
      simp [dictIncr, dictGet, dictGetD, h, h2]
  | cons p rest ih =>
    obtain ⟨k₀, v₀⟩ := p
    by_cases h0 : k₀ = k
    · subst h0
      by_cases h : k' = k₀
      · subst h
        simp [dictIncr, dictGet, dictGetD]
      · have h2 : ¬(k₀ = k') := fun hh => h hh.symm
        simp [dictIncr, dictGet, dictGetD, h, h2]
    · by_cases h1 : k₀ = k'
      · have h2 : ¬(k' = k) := fun hh => h0 (h1.trans hh)
        simp [dictIncr, dictGet, dictGetD, h0, h1, h2]
      · simp [dictIncr, dictGet, dictGetD, h0, h1, ih]

theorem dictGetD_incr (d : List (String × Int)) (k : String) (v : Int)
    (k' : String) :
    dictGetD (dictIncr d k v) k' =
      dictGetD d k' + if k' = k then v else 0 := by
  rw [dictGetD, dictGet_incr]
  by_cases h : k' = k
  · subst h
    simp [dictGetD]
  · simp [h, dictGetD]

theorem isSome_dictGet_incr (d : List (String × Int)) (k : String) (v : Int)
    (k' : String) :
    (dictGet (dictIncr d k v) k').isSome =
      ((dictGet d k').isSome || (k' == k)) := by
  rw [dictGet_incr]
  by_cases h : k' = k
  · simp [h]
  · simp [h]

theorem dictGetD_foldl (ps : List (String × Int)) (d : List (String × Int))
    (k : String) :
    dictGetD (ps.foldl (fun a p => dictIncr a p.1 p.2) d) k =
      dictGetD d k + sumAt ps k := by
  induction ps generalizing d with
  | nil => simp [sumAt]
  | cons p rest ih =>
    rw [List.foldl_cons, ih, dictGetD_incr, sumAt, add_assoc]

theorem isSome_dictGet_foldl (ps : List (String × Int))
    (d : List (String × Int)) (k : String) :
    (dictGet (ps.foldl (fun a p => dictIncr a p.1 p.2) d) k).isSome =
      ((dictGet d k).isSome || ps.any (fun p => k == p.1)) := by
  induction ps generalizing d with
  | nil => simp
  | cons p rest ih =>
    rw [List.foldl_cons, ih, isSome_dictGet_incr]
    simp [Bool.or_assoc]

theorem aggregate_eq_foldl_flatten (l : List (List (String × Int))) :
    aggregate_tls_stats l =
      l.flatten.foldl (fun a p => dictIncr a p.1 p.2) [] := by
  rw [aggregate_tls_stats, List.foldl_flatten]

theorem dictGetD_aggregate (l : List (List (String × Int))) (k : String) :
    dictGetD (aggregate_tls_stats l) k = sumAt l.flatten k := by
  rw [aggregate_eq_foldl_flatten, dictGetD_foldl]
  simp [dictGetD, dictGet]

theorem isSome_aggregate (l : List (List (String × Int))) (k : String) :
    (dictGet (aggregate_tls_stats l) k).isSome =
      l.flatten.any (fun p => k == p.1) := by
  rw [aggregate_eq_foldl_flatten, isSome_dictGet_foldl]
  simp [dictGet]

theorem sumAt_eq_sum_map (ps : List (String × Int)) (k : String) :
    sumAt ps k = (ps.map (fun p => if k = p.1 then p.2 else 0)).sum := by
  induction ps with
  | nil => simp [sumAt]
  | cons p rest ih => simp [sumAt, ih]

theorem sumAt_perm {ps qs : List (String × Int)} (h : ps.Perm qs)
    (k : String) : sumAt ps k = sumAt qs k := by
  rw [sumAt_eq_sum_map, sumAt_eq_sum_map]
  exact (h.map _).sum_eq

theorem any_perm {α : Type} {l₁ l₂ : List α} (h : l₁.Perm l₂)
    (f : α → Bool) : l₁.any f = l₂.any f := by
  induction h with
  | nil => rfl
  | cons x _ ih => simp [List.any_cons, ih]
  | swap x y l => simp [List.any_cons, Bool.or_left_comm]
  | trans _ _ ih1 ih2 => exact ih1.trans ih2

theorem option_int_ext (o₁ o₂ : Option Int) (h1 : o₁.isSome = o₂.isSome)
    (h2 : o₁.getD 0 = o₂.getD 0) : o₁ = o₂ := by
  cases o₁ <;> cases o₂ <;> simp_all

/-- C2: `aggregate_tls_stats` is order-independent: permuting the list of
protocol-to-count dictionaries never changes the resulting mapping (the
result looks up identically at every protocol label). -/
theorem aggregate_tls_stats_perm_invariant (l₁ l₂ : List (List (String × Int)))
    (h : l₁.Perm l₂) (k : String) :
    dictGet (aggregate_tls_stats l₁) k = dictGet (aggregate_tls_stats l₂) k := by
  apply option_int_ext
  · rw [isSome_aggregate, isSome_aggregate]
    exact any_perm h.flatten _
  · show dictGetD (aggregate_tls_stats l₁) k = dictGetD (aggregate_tls_stats l₂) k
    rw [dictGetD_aggregate, dictGetD_aggregate]
    exact sumAt_perm h.flatten k

theorem aggregate_tls_stats_perm_invariant_witness :
    dictGet (aggregate_tls_stats [[("TLSv1.2", 3)], [("TLSv1.3", 4)]]) "TLSv1.2" =
      dictGet (aggregate_tls_stats [[("TLSv1.3", 4)], [("TLSv1.2", 3)]]) "TLSv1.2" :=
  aggregate_tls_stats_perm_invariant _ _ (by decide) _

/-- Embedding of the global-accumulation loop of `main` (q3.py lines
551-559): a zone's statistics are folded into the global mapping only when
the zone produced a non-empty dictionary (`if zone_tls_stats:`). -/
def main_global (zone_stats : List (List (String × Int))) :
    List (String × Int) :=
  zone_stats.foldl
    (fun acc zs =>
      if zs = [] then acc
      else zs.foldl (fun a p => dictIncr a p.1 p.2) acc) []

theorem main_global_eq_aggregate (l : List (List (String × Int))) :
    main_global l = aggregate_tls_stats l := by
  rw [main_global, aggregate_tls_stats]
  suffices h : ∀ init : List (String × Int),
      l.foldl (fun acc zs =>
        if zs = [] then acc
        else zs.foldl (fun a p => dictIncr a p.1 p.2) acc) init =
      l.foldl (fun aggregated stats =>
        stats.foldl (fun a p => dictIncr a p.1 p.2) aggregated) init from
    h []
  induction l with
  | nil => intro init; rfl
  | cons zs rest ih =>
    intro init
    rw [List.foldl_cons, List.foldl_cons, ih]
    congr 1
    by_cases h : zs = []
    · subst h; rfl
    · simp [h]

theorem sumAt_eq_zero (ps : List (String × Int)) (k : String)
    (h : ∀ p ∈ ps, p.1 ≠ k) : sumAt ps k = 0 := by
  induction ps with
  | nil => rfl
  | cons p rest ih =>
    rw [sumAt, if_neg (fun hk => h p (List.mem_cons_self _ _) hk.symm),
      ih (fun q hq => h q (List.mem_cons_of_mem _ hq)), add_zero]

theorem sumAt_eq_dictGetD_of_nodup (ps : List (String × Int)) (k : String)
    (h : (ps.map Prod.fst).Nodup) : sumAt ps k = dictGetD ps k := by
  induction ps with
  | nil => simp [sumAt, dictGetD, dictGet]
  | cons p rest ih =>
    rw [List.map_cons, List.nodup_cons] at h
    obtain ⟨k₀, v₀⟩ := p
    by_cases hk : k₀ = k
    · subst hk
      have hz : sumAt rest k₀ = 0 :=
        sumAt_eq_zero _ _ (fun q hq hqk => h.1 (List.mem_map.2 ⟨q, hq, hqk⟩))
      simp [sumAt, dictGetD, dictGet, hz]
    · have hk2 : ¬(k = k₀) := fun hh => hk hh.symm
      simp [sumAt, dictGetD, dictGet, hk, hk2] at ih ⊢
      exact ih h.2

theorem sumAt_append (a b : List (String × Int)) (k : String) :
    sumAt (a ++ b) k = sumAt a k + sumAt b k := by
  induction a with
  | nil => simp [sumAt]
  | cons p rest ih => rw [List.cons_append, sumAt, sumAt, ih, add_assoc]

theorem sumAt_flatten_eq_sum (l : List (List (String × Int))) (k : String) :
    (∀ zs ∈ l, (zs.map Prod.fst).Nodup) →
    sumAt l.flatten k = (l.map (fun zs => dictGetD zs k)).sum := by
  induction l with
  | nil => intro _; simp [sumAt]
  | cons zs rest ih =>
    intro hl
    rw [List.flatten_cons, sumAt_append, List.map_cons, List.sum_cons,
      ih (fun z hz => hl z (List.mem_cons_of_mem _ hz)),
      sumAt_eq_dictGetD_of_nodup _ _ (hl zs (List.mem_cons_self _ _))]

/-- C3: the global mapping accumulated by `main` is the element-wise
(per-protocol-label) sum of the per-zone mappings, and on the two concrete
zone contributions of the spec's scenario B it equals
`{"TLSv1.2": 100, "TLSv1.3": 75}`. -/
theorem global_report_spec :
    (∀ l : List (List (String × Int)),
      (∀ zs ∈ l, (zs.map Prod.fst).Nodup) →
      ∀ k, dictGetD (main_global l) k =
        (l.map (fun zs => dictGetD zs k)).sum) ∧
    main_global [[("TLSv1.2", 100), ("TLSv1.3", 50)], [("TLSv1.3", 25)]] =
      [("TLSv1.2", 100), ("TLSv1.3", 75)] := by
  constructor
  · intro l hl k
    rw [main_global_eq_aggregate, dictGetD_aggregate,
      sumAt_flatten_eq_sum l k hl]
  · decide

theorem global_report_spec_witness :
    dictGetD (main_global [[("TLSv1.2", 100), ("TLSv1.3", 50)],
        [("TLSv1.3", 25)]]) "TLSv1.3" =
      ([[("TLSv1.2", 100), ("TLSv1.3", 50)], [("TLSv1.3", 25)]].map
        (fun zs => dictGetD zs "TLSv1.3")).sum :=
  global_report_spec.1 _ (by decide) "TLSv1.3"

/-! ### Per-chunk query results and the per-zone pipeline -/

/-- One `clientSSLMap` entry of a statistics response. -/
structure SSLData where
  clientSSLProtocol : String
  requests : Int
deriving DecidableEq

/-- The `sum` object of one time-bucketed group. -/
structure SumData where
  clientSSLMap : List SSLData
deriving DecidableEq

/-- One `httpRequests1hGroups` entry. -/
structure HttpGroup where
  sum : SumData
deriving DecidableEq

/-- One zone object of `data.viewer.zones` in a statistics response. -/
structure ZoneData where
  httpRequests1hGroups : List HttpGroup
deriving DecidableEq

/-- A well-formed statistics response body (`data.viewer.zones`). -/
structure TLSData where
  zones : List ZoneData
deriving DecidableEq

/-- Embedding of `process_tls_data_for_zone` (q3.py lines 307-349): fold
every (protocol, requests) pair nested under
`zones[*].httpRequests1hGroups[*].sum.clientSSLMap[*]` into one dictionary. -/
def process_tls_data_for_zone (data : TLSData) : List (String × Int) :=
  data.zones.foldl
    (fun acc zone =>
      zone.httpRequests1hGroups.foldl
        (fun acc' group =>
          group.sum.clientSSLMap.foldl
            (fun acc'' ssl => dictIncr acc'' ssl.clientSSLProtocol ssl.requests)
            acc')
        acc)
    []

/-- Embedding of `fetch_zone_tls_stats_chunked` (q3.py lines 374-422) as a
function of the per-chunk query outcomes: a chunk whose query returned data
(`some`) is processed and appended to `chunk_stats`; a failed chunk (`none`)
only prints a warning and appends nothing; finally all collected chunk
dictionaries are aggregated. -/
def fetch_zone_tls_stats_chunked (chunk_responses : List (Option TLSData)) :
    List (String × Int) :=
  aggregate_tls_stats
    (chunk_responses.filterMap (fun r => r.map process_tls_data_for_zone))

/-- C6: a failed chunk contributes nothing to the zone aggregation (removing
it from the response list leaves the result unchanged, exactly as if it had
contributed the empty mapping); folding an empty mapping inserted anywhere
into `aggregate_tls_stats` leaves the result unchanged; and a zone all of
whose chunks failed yields the empty mapping (the run does not abort: the
function is total and returns normally). -/
theorem failed_chunk_zero_contribution :
    (∀ l₁ l₂ : List (List (String × Int)),
      aggregate_tls_stats (l₁ ++ [] :: l₂) = aggregate_tls_stats (l₁ ++ l₂)) ∧
    (∀ r₁ r₂ : List (Option TLSData),
      fetch_zone_tls_stats_chunked (r₁ ++ none :: r₂) =
        fetch_zone_tls_stats_chunked (r₁ ++ r₂)) ∧
    (∀ rs : List (Option TLSData), (∀ r ∈ rs, r = none) →
      fetch_zone_tls_stats_chunked rs = []) := by
  refine ⟨?_, ?_, ?_⟩
  · intro l₁ l₂
    rw [aggregate_tls_stats, aggregate_tls_stats, List.foldl_append,
      List.foldl_append, List.foldl_cons, List.foldl_nil]
  · intro r₁ r₂
    rw [fetch_zone_tls_stats_chunked, fetch_zone_tls_stats_chunked,
      List.filterMap_append, List.filterMap_append, List.filterMap_cons]
    rfl
  · intro rs h
    rw [fetch_zone_tls_stats_chunked]
    have : rs.filterMap (fun r => r.map process_tls_data_for_zone) = [] := by
      rw [List.filterMap_eq_nil_iff]
      intro r hr
      rw [h r hr]
      rfl
    rw [this]
    rfl

theorem failed_chunk_zero_contribution_witness :
    fetch_zone_tls_stats_chunked [none, none] = [] :=
  failed_chunk_zero_contribution.2.2 [none, none] (by decide)

/-! ### Zone discovery -/

/-- A zone as assembled by the discovery functions: identifier plus
display name. -/
structure Zone where
  zoneTag : String
  name : String
deriving DecidableEq

/-- Embedding of `get_all_zones` (q3.py lines 262-304) as a function of its
two collaborators' outcomes: `restZones` is whatever
`get_all_zones_rest_api` returned (that function returns `[]` on every
error path), and `gqlZones` is the outcome of the GraphQL fallback —
`none` models a failed query or a response missing the expected keys
(both paths return `[]`), `some tags` models the list of `zoneTag` values
found in the response.  In the fallback, the tag is used as the display
name. -/
def get_all_zones (restZones : List Zone) (gqlZones : Option (List String)) :
    List Zone :=
  if restZones ≠ [] then restZones
  else
    match gqlZones with
    | none => []
    | some tags => tags.map (fun t => { zoneTag := t, name := t })

/-- C5: the primary (REST) listing wins whenever it yields zones; exactly
when it yields zero zones the query-based fallback decides the result, each
fallback zone's display name equals its identifier, and when both
mechanisms yield nothing the result is the empty list (all paths return
normally). -/
theorem get_all_zones_spec (rest : List Zone) (gql : Option (List String)) :
    (rest ≠ [] → get_all_zones rest gql = rest) ∧
    (rest = [] → get_all_zones rest gql =
      (gql.getD []).map (fun t => { zoneTag := t, name := t })) ∧
    (∀ z ∈ get_all_zones [] gql, z.name = z.zoneTag) ∧
    (rest = [] → (gql = none ∨ gql = some []) →
      get_all_zones rest gql = []) := by
  refine ⟨?_, ?_, ?_, ?_⟩
  · intro h
    rw [get_all_zones.eq_def, if_pos h]
  · intro h
    subst h
    cases gql with
    | none => rfl
    | some tags => rfl
  · intro z hz
    rw [get_all_zones.eq_def, if_neg (by simp)] at hz
    cases gql with
    | none => simp at hz
    | some tags =>
      simp only [List.mem_map] at hz
      obtain ⟨t, _, rfl⟩ := hz
      rfl
  · intro h hg
    subst h
    rcases hg with rfl | rfl <;> rfl

theorem get_all_zones_spec_witness :
    get_all_zones [] (some ["zone1"]) =
      [{ zoneTag := "zone1", name := "zone1" }] :=
  (get_all_zones_spec [] (some ["zone1"])).2.1 rfl

/-! ### Pacing of consecutive queries -/

/-- Observable pipeline events: one statistics query, or one pacing sleep. -/
inductive PacingEvent where
  | query : PacingEvent
  | pause : PacingEvent
deriving DecidableEq

/-- The query/sleep trace of the chunk loop of
`fetch_zone_tls_stats_chunked` (q3.py lines 404-419): every chunk issues
one query and then, whenever `delay > 0`, sleeps — including after the
last chunk of the zone. -/
def fetch_zone_pacing (numChunks : Nat) (delay : ℚ) : List PacingEvent :=
  (List.range numChunks).foldl
    (fun evs _ =>
      evs ++ ([PacingEvent.query] ++
        if 0 < delay then [PacingEvent.pause] else []))
    []

/-- The trace of the zone loop of `main` (q3.py lines 535-570): each zone
runs its chunk loop, and `main` additionally sleeps between zones
(`if i < len(zones) and args.delay > 0`), skipping the pause after the
last zone. -/
def main_pacing (numZones numChunks : Nat) (delay : ℚ) : List PacingEvent :=
  (List.range numZones).foldl
    (fun evs i =>
      evs ++ (fetch_zone_pacing numChunks delay ++
        if i + 1 < numZones ∧ 0 < delay then [PacingEvent.pause] else []))
    []

theorem foldl_append_eq_flatMap {α β : Type} (f : α → List β) (l : List α)
    (init : List β) :
    l.foldl (fun evs a => evs ++ f a) init = init ++ l.flatMap f := by
  induction l generalizing init with
  | nil => simp
  | cons a rest ih => simp [ih, List.append_assoc]

theorem count_flatMap {α β : Type} [DecidableEq β] (f : α → List β)
    (l : List α) (e : β) :
    ((l.flatMap f).count e) = (l.map (fun a => (f a).count e)).sum := by
  induction l with
  | nil => rfl
  | cons a rest ih => simp [List.flatMap_cons, List.count_append, ih]

theorem pacing_sum (z c w : Nat) :
    ((List.range z).map (fun i => w + if i + 1 < c then 1 else 0)).sum =
      z * w + min z (c - 1) := by
  induction z with
  | zero => simp
  | succ m ih =>
    rw [List.range_succ, List.map_append, List.sum_append, ih,
      List.map_cons, List.map_nil, List.sum_cons, List.sum_nil,
      Nat.succ_mul]
    by_cases h : m + 1 < c
    · rw [if_pos h]
      omega
    · rw [if_neg h]
      omega

theorem count_pause_fetch_zone (w : Nat) (delay : ℚ) (hd : 0 < delay) :
    (fetch_zone_pacing w delay).count PacingEvent.pause = w := by
  rw [fetch_zone_pacing, foldl_append_eq_flatMap, List.nil_append,
    count_flatMap]
  have hmap : (List.range w).map
      (fun _ => (([PacingEvent.query] ++
        if 0 < delay then [PacingEvent.pause] else []).count
          PacingEvent.pause)) =
      (List.range w).map (fun _ => 1) := by
    refine List.map_congr_left (fun i _ => ?_)
    rw [if_pos hd]
    rfl
  rw [hmap, List.map_const', List.sum_replicate, List.length_range,
    smul_eq_mul, mul_one]

/-- C7 (counterexample): with one zone and one window and positive delay the
code pauses once (after the only window), not `1*1 - 1 = 0` times as
claimed: the pacing sleep is not skipped after the last window of a zone. -/
theorem pacing_count_counterexample :
    (main_pacing 1 1 1).count PacingEvent.pause ≠ 1 * 1 - 1 := by
  decide

/-- C7 (amended): with positive pacingDelay, a run over `z` zones of `w`
windows each pauses after every window query (including the last window of
each zone) and additionally between consecutive zones but not after the
last zone: exactly `z*w + z - 1` pacing pauses occur. -/
theorem pacing_count (z w : Nat) (delay : ℚ) (hd : 0 < delay) :
    (main_pacing z w delay).count PacingEvent.pause = z * w + z - 1 := by
  rw [main_pacing, foldl_append_eq_flatMap, List.nil_append, count_flatMap]
  have hmap : (List.range z).map
      (fun i => ((fetch_zone_pacing w delay ++
        if i + 1 < z ∧ 0 < delay then [PacingEvent.pause] else []).count
          PacingEvent.pause)) =
      (List.range z).map (fun i => w + if i + 1 < z then 1 else 0) := by
    refine List.map_congr_left (fun i _ => ?_)
    rw [List.count_append, count_pause_fetch_zone w delay hd]
    by_cases h : i + 1 < z
    · rw [if_pos ⟨h, hd⟩, if_pos h]
      rfl
    · rw [if_neg (fun hc => h hc.1), if_neg h]
      rfl
  rw [hmap, pacing_sum]
  rcases Nat.eq_zero_or_pos z with rfl | hz
  · simp
  · rw [Nat.min_eq_right (by omega), Nat.add_sub_assoc (by omega)]

theorem pacing_count_witness :
    (main_pacing 2 3 1).count PacingEvent.pause = 7 :=
  pacing_count 2 3 1 (by decide)

/-! ### REST pagination -/

/-- One zone object of a REST listing page. -/
structure RestZoneObj where
  id : String
  name : String
deriving DecidableEq

/-- One REST zone-listing response: the `success` flag, the `result` list,
and the `result_info.total_pages` metadata (default 1 in the source). -/
structure RestPage where
  success : Bool
  result : List RestZoneObj
  total_pages : Nat
deriving DecidableEq

/-- Embedding of the `while True` pagination loop of
`get_all_zones_rest_api` (q3.py lines 212-247), with the response for each
page number given by `pages` and an explicit fuel bound (the Python loop
has none); the result also carries the final value of the page counter.
`none` means the fuel ran out before the loop exited. -/
def get_all_zones_rest_api_loop (pages : Nat → RestPage) :
    Nat → Nat → List Zone → Option (List Zone × Nat)
  | 0, _, _ => none
  | fuel + 1, page, acc =>
    let resp := pages page
    if resp.success = false then some ([], page)
    else if resp.result = [] then some (acc, page)
    else
      let acc' := acc ++ resp.result.map
        (fun z => { zoneTag := z.id, name := z.name })
      if resp.total_pages ≤ page then some (acc', page)
      else get_all_zones_rest_api_loop pages fuel (page + 1) acc'

/-- `get_all_zones_rest_api` runs the pagination loop from page 1 with an
empty accumulator. -/
def get_all_zones_rest_api (pages : Nat → RestPage) (fuel : Nat) :
    Option (List Zone × Nat) :=
  get_all_zones_rest_api_loop pages fuel 1 []

theorem rest_loop_stops_at_empty (pages : Nat → RestPage) (p₀ : Nat)
    (hend : (pages p₀).success = true ∧ (pages p₀).result = []) :
    ∀ d page acc fuel, page + d = p₀ → d < fuel →
    (∀ p, p < p₀ → page ≤ p →
      (pages p).success = true ∧ (pages p).result ≠ [] ∧
        p < (pages p).total_pages) →
    ∃ acc', get_all_zones_rest_api_loop pages fuel page acc =
      some (acc', p₀) := by
  intro d
  induction d with
  | zero =>
    intro page acc fuel hp hf _
    obtain ⟨fuel, rfl⟩ : ∃ f, fuel = f + 1 :=
      ⟨fuel - 1, by omega⟩
    have hpage : page = p₀ := by omega
    subst hpage
    refine ⟨acc, ?_⟩
    simp only [get_all_zones_rest_api_loop, hend.1, hend.2]
    rfl
  | succ d ih =>
    intro page acc fuel hp hf hne
    obtain ⟨fuel, rfl⟩ : ∃ f, fuel = f + 1 :=
      ⟨fuel - 1, by omega⟩
    have hlt : page < p₀ := by omega
    obtain ⟨hs, hr, ht⟩ := hne page hlt (le_refl _)
    obtain ⟨acc', hacc'⟩ := ih (page + 1)
      (acc ++ (pages page).result.map
        (fun z => { zoneTag := z.id, name := z.name }))
      fuel (by omega) (by omega)
      (fun p hp1 hp2 => hne p hp1 (by omega))
    refine ⟨acc', ?_⟩
    simp only [get_all_zones_rest_api_loop, hs, hr, Bool.true_eq_false,
      if_false, if_neg (by omega : ¬ (pages page).total_pages ≤ page)]
    simpa using hacc'

/-- C10: the primary pagination loop stops at the first page whose result
list is empty even when the `total_pages` metadata overstates the page
count for every earlier page: the loop returns (given fuel at least the
index of the first empty page) and the page counter stops exactly at that
first empty page. -/
theorem rest_pagination_stops_at_first_empty (pages : Nat → RestPage)
    (p₀ : Nat) (h1 : 1 ≤ p₀)
    (hne : ∀ p, p < p₀ → 1 ≤ p →
      (pages p).success = true ∧ (pages p).result ≠ [] ∧
        p < (pages p).total_pages)
    (hend : (pages p₀).success = true ∧ (pages p₀).result = [])
    (fuel : Nat) (hfuel : p₀ ≤ fuel) :
    ∃ acc, get_all_zones_rest_api pages fuel = some (acc, p₀) := by
  rw [get_all_zones_rest_api]
  exact rest_loop_stops_at_empty pages p₀ hend (p₀ - 1) 1 [] fuel
    (by omega) (by omega) (fun p hp1 hp2 => hne p hp1 hp2)

theorem rest_pagination_stops_at_first_empty_witness :
    ∃ acc, get_all_zones_rest_api
      (fun p => if p < 3 then
        { success := true, result := [{ id := "i", name := "n" }],
          total_pages := 100 }
        else { success := true, result := [], total_pages := 100 }) 5 =
      some (acc, 3) :=
  rest_pagination_stops_at_first_empty _ 3 (by decide)
    (by decide) (by decide) 5 (by decide)

/-! ### Handling of a null-valued errors field -/

/-- A decoded GraphQL response body: `errors` distinguishes a missing
`errors` key (`none`), a present-but-null one (`some none`), and a non-null
error list (`some (some msgs)`); `payload` stands for the rest of the
body. -/
structure GQLResponse where
  errors : Option (Option (List String))
  payload : String
deriving DecidableEq

/-- Embedding of the response handling of `execute_graphql_query` in q3.py
(lines 177-181): a present non-null `errors` value is reported and the call
returns `None`; every other well-formed response is returned as-is, with no
output for a null-valued `errors` field.  The boolean records whether the
null-errors anomaly warning was printed (q3 has no such print). -/
def handle_response_q3 (r : GQLResponse) : Option GQLResponse × Bool :=
  match r.errors with
  | some (some _) => (none, false)
  | _ => (some r, false)

/-- Embedding of the response handling of `execute_graphql_query` in q1.py
(lines 125-132): as in q3, but a present null-valued `errors` field
additionally prints the possible-authentication-issue warning before the
response is returned. -/
def handle_response_q1 (r : GQLResponse) : Option GQLResponse × Bool :=
  match r.errors with
  | some (some _) => (none, false)
  | some none => (some r, true)
  | none => (some r, false)

/-- C9 (counterexample): for a well-formed response whose `errors` field is
present with a null value, the multi-zone Query Executor (q3) returns the
data but emits no warning flag, refuting the claim that a visible warning
accompanies every such response. -/
theorem null_errors_counterexample :
    ¬ ((handle_response_q3 ⟨some none, "body"⟩).1 =
        some ⟨some none, "body"⟩ ∧
      (handle_response_q3 ⟨some none, "body"⟩).2 = true) := by
  decide

/-- C9 (amended): a response with a present null-valued `errors` field is
treated as success (the data is returned) by both executor variants; the
single-zone variant (q1) emits the authorization-anomaly warning, while the
multi-zone variant (q3) returns it silently. -/
theorem null_errors_handling (r : GQLResponse) (h : r.errors = some none) :
    handle_response_q1 r = (some r, true) ∧
    handle_response_q3 r = (some r, false) := by
  constructor
  · rw [handle_response_q1, h]
  · rw [handle_response_q3.eq_def, h]

theorem null_errors_handling_witness :
    handle_response_q1 ⟨some none, "x"⟩ = (some ⟨some none, "x"⟩, true) ∧
    handle_response_q3 ⟨some none, "x"⟩ = (some ⟨some none, "x"⟩, false) :=
  null_errors_handling ⟨some none, "x"⟩ rfl

/-! ### Export of a zone report -/

/-- The decimal digit characters of Python's integer formatting. -/
def digitChar (n : Nat) : Char := Char.ofNat (48 + n)

/-- Decimal rendering of a natural number, most significant digit first
(the digits Python's f-string produces for a non-negative int). -/
def natChars (n : Nat) : List Char :=
  if _h : n < 10 then [digitChar n]
  else natChars (n / 10) ++ [digitChar (n % 10)]
termination_by n
decreasing_by omega

/-- Decimal rendering of an int, with a leading minus sign when negative
(Python `str`/f-string formatting of an int). -/
def intChars (v : Int) : List Char :=
  if v < 0 then '-' :: natChars (-v).toNat else natChars v.toNat

/-- The stable descending-by-count sort
`sorted(tls_stats.items(), key=lambda x: x[1], reverse=True)` of the
export and display functions. -/
def sortDesc (stats : List (String × Int)) : List (String × Int) :=
  stats.mergeSort (fun a b => decide (b.2 ≤ a.2))

/-- One exported line `f"{zone_name};{zone_tag};{protocol};{requests}"`
(without its terminating newline). -/
def export_line (zone_name zone_tag : String) (p : String × Int) : String :=
  zone_name ++ ";" ++ zone_tag ++ ";" ++ p.1 ++ ";" ++ String.mk (intChars p.2)

/-- Embedding of `export_zone_tls_stats` (q3.py lines 450-473) as the list
of lines appended to the export file: nothing is written for an empty
report; otherwise one line per (protocol, count) pair of the report, in
descending count order. -/
def export_zone_lines (zone_name zone_tag : String)
    (tls_stats : List (String × Int)) : List String :=
  if tls_stats = [] then []
  else (sortDesc tls_stats).map (export_line zone_name zone_tag)

/-- Modelled from the spec: the repository contains no reader for its
export file, so re-parsing follows the documented line format
`zoneName;zoneIdentifier;protocolLabel;count` — split the line at every
semicolon. -/
def splitSemi : List Char → List (List Char)
  | [] => [[]]
  | c :: rest =>
    if c = ';' then [] :: splitSemi rest
    else
      match splitSemi rest with
      | [] => [[c]]
      | f :: r => (c :: f) :: r

/-- Modelled from the spec: decimal reading of a digit string. -/
def parseNat (cs : List Char) : Nat :=
  cs.foldl (fun acc c => acc * 10 + (c.toNat - 48)) 0

/-- Modelled from the spec: integer reading with an optional minus sign. -/
def parseInt : List Char → Int
  | [] => 0
  | c :: rest =>
    if c = '-' then -(parseNat rest : Int) else (parseNat (c :: rest) : Int)

/-- Modelled from the spec: re-parse one exported line into its four
semicolon-delimited fields. -/
def parse_line (line : String) : Option (String × String × String × Int) :=
  match splitSemi line.data with
  | [n, t, p, c] => some (String.mk n, String.mk t, String.mk p, parseInt c)
  | _ => none

theorem digitChar_toNat (m : Nat) (h : m < 10) :
    (digitChar m).toNat = 48 + m := by
  interval_cases m <;> rfl

theorem digitChar_ne (m : Nat) (h : m < 10) :
    digitChar m ≠ ';' ∧ digitChar m ≠ '-' := by
  interval_cases m <;> exact ⟨by decide, by decide⟩

theorem natChars_ne_nil (n : Nat) : natChars n ≠ [] := by
  rw [natChars]
  by_cases h : n < 10
  · rw [dif_pos h]
    exact List.cons_ne_nil _ _
  · rw [dif_neg h]
    simp

theorem natChars_mem (n : Nat) :
    ∀ c ∈ natChars n, c ≠ ';' ∧ c ≠ '-' := by
  induction n using natChars.induct with
  | case1 n h =>
    intro c hc
    rw [natChars, dif_pos h] at hc
    simp only [List.mem_singleton] at hc
    subst hc
    exact digitChar_ne n h
  | case2 n h ih =>
    intro c hc
    rw [natChars, dif_neg h] at hc
    rcases List.mem_append.1 hc with hc | hc
    · exact ih c hc
    · simp only [List.mem_singleton] at hc
      subst hc
      exact digitChar_ne _ (by omega)

theorem parseNat_append_digit (xs : List Char) (c : Char) :
    parseNat (xs ++ [c]) = parseNat xs * 10 + (c.toNat - 48) := by
  rw [parseNat, parseNat, List.foldl_append]
  rfl

theorem parseNat_natChars (n : Nat) : parseNat (natChars n) = n := by
  induction n using natChars.induct with
  | case1 n h =>
    rw [natChars, dif_pos h]
    have hd := digitChar_toNat n h
    simp [parseNat, hd]
  | case2 n h ih =>
    rw [natChars, dif_neg h, parseNat_append_digit, ih,
      digitChar_toNat _ (by omega)]
    omega

theorem intChars_mem (v : Int) : ∀ c ∈ intChars v, c ≠ ';' := by
  intro c hc
  rw [intChars] at hc
  by_cases hv : v < 0
  · rw [if_pos hv] at hc
    rcases List.mem_cons.1 hc with rfl | hc
    · decide
    · exact (natChars_mem _ c hc).1
  · rw [if_neg hv] at hc
    exact (natChars_mem _ c hc).1

theorem parseInt_intChars (v : Int) : parseInt (intChars v) = v := by
  rw [intChars]
  by_cases hv : v < 0
  · rw [if_pos hv, parseInt, if_pos rfl, parseNat_natChars,
      Int.toNat_of_nonneg (by omega)]
    omega
  · rw [if_neg hv]
    rcases hn : natChars v.toNat with _ | ⟨c, rest⟩
    · exact absurd hn (natChars_ne_nil _)
    · have hc : c ≠ '-' :=
        (natChars_mem _ c (hn ▸ List.mem_cons_self _ _)).2
      rw [parseInt, if_neg hc, ← hn, parseNat_natChars,
        Int.toNat_of_nonneg (by omega)]

theorem splitSemi_no_semi (cs : List Char) (h : ∀ c ∈ cs, c ≠ ';') :
    splitSemi cs = [cs] := by
  induction cs with
  | nil => rfl
  | cons c rest ih =>
    rw [splitSemi, if_neg (h c (List.mem_cons_self _ _)),
      ih (fun x hx => h x (List.mem_cons_of_mem _ hx))]

theorem splitSemi_append (a rest : List Char) (h : ∀ c ∈ a, c ≠ ';') :
    splitSemi (a ++ ';' :: rest) = a :: splitSemi rest := by
  induction a with
  | nil => rw [List.nil_append, splitSemi, if_pos rfl]
  | cons c a ih =>
    rw [List.cons_append, splitSemi, if_neg (h c (List.mem_cons_self _ _)),
      ih (fun x hx => h x (List.mem_cons_of_mem _ hx))]

theorem parse_line_export_line (n t : String) (p : String × Int)
    (hn : ∀ ch ∈ n.data, ch ≠ ';') (ht : ∀ ch ∈ t.data, ch ≠ ';')
    (hp : ∀ ch ∈ p.1.data, ch ≠ ';') :
    parse_line (export_line n t p) = some (n, t, p.1, p.2) := by
  rw [parse_line, export_line]
  have hdata :
      (n ++ ";" ++ t ++ ";" ++ p.1 ++ ";" ++ String.mk (intChars p.2)).data =
        n.data ++ ';' :: (t.data ++ ';' :: (p.1.data ++ ';' :: intChars p.2)) := by
    simp [String.data_append, List.append_assoc]
  rw [hdata, splitSemi_append _ _ hn, splitSemi_append _ _ ht,
    splitSemi_append _ _ hp, splitSemi_no_semi _ (intChars_mem p.2)]
  show some (String.mk n.data, String.mk t.data, String.mk p.1.data,
    parseInt (intChars p.2)) = some (n, t, p.1, p.2)
  rw [parseInt_intChars]

theorem isSome_dictGet_any (d : List (String × Int)) (k : String) :
    (dictGet d k).isSome = d.any (fun p => k == p.1) := by
  induction d with
  | nil => rfl
  | cons p rest ih =>
    obtain ⟨k₀, v₀⟩ := p
    by_cases h : k₀ = k
    · subst h
      simp [dictGet]
    · have h2 : ¬(k = k₀) := fun hh => h hh.symm
      simp [dictGet, h, h2, ih]

theorem filterMap_eq_map_of_some {α β : Type} (f : α → Option β) (g : α → β)
    (l : List α) (h : ∀ a ∈ l, f a = some (g a)) :
    l.filterMap f = l.map g := by
  induction l with
  | nil => rfl
  | cons a rest ih =>
    rw [List.filterMap_cons, h a (List.mem_cons_self _ _), List.map_cons,
      ih (fun x hx => h x (List.mem_cons_of_mem _ hx))]

/-- C8 (counterexample): a zone report consisting of a single zero-count
entry produces one exported line — zero-count entries are written,
refuting the claim that they never are. -/
theorem export_zero_count_counterexample :
    (export_zone_lines "z" "t" [("p", 0)]).length = 1 := by
  rw [export_zone_lines, if_neg (by decide), List.length_map, sortDesc,
    (List.mergeSort_perm _ _).length_eq]
  rfl

/-- C8 (amended): exporting a zone report writes exactly one
`zoneName;zoneIdentifier;protocolLabel;count` line per (zone, protocol)
pair of the report — including zero-count entries — and, when the written
names contain no semicolon, re-parsing the written lines recovers the
zone fields and a permutation of the report's (protocol, count) pairs,
which rebuilds a mapping with exactly the original lookups. -/
theorem export_roundtrip (zone_name zone_tag : String)
    (tls_stats : List (String × Int))
    (hn : ∀ ch ∈ zone_name.data, ch ≠ ';')
    (ht : ∀ ch ∈ zone_tag.data, ch ≠ ';')
    (hp : ∀ q ∈ tls_stats, ∀ ch ∈ q.1.data, ch ≠ ';') :
    (export_zone_lines zone_name zone_tag tls_stats).length =
      tls_stats.length ∧
    ∃ s' : List (String × Int), s'.Perm tls_stats ∧
      (export_zone_lines zone_name zone_tag tls_stats).filterMap parse_line =
        s'.map (fun q => (zone_name, zone_tag, q.1, q.2)) ∧
      ((tls_stats.map Prod.fst).Nodup → ∀ k,
        dictGet (s'.foldl (fun d q => dictIncr d q.1 q.2) []) k =
          dictGet tls_stats k) := by
  by_cases hs : tls_stats = []
  · subst hs
    exact ⟨rfl, [], List.Perm.nil, rfl, fun _ k => rfl⟩
  · have hperm : (sortDesc tls_stats).Perm tls_stats :=
      List.mergeSort_perm _ _
    constructor
    · rw [export_zone_lines, if_neg hs, List.length_map, hperm.length_eq]
    · refine ⟨sortDesc tls_stats, hperm, ?_, ?_⟩
      · rw [export_zone_lines, if_neg hs, List.filterMap_map]
        exact filterMap_eq_map_of_some _ _ _ (fun q hq =>
          parse_line_export_line zone_name zone_tag q hn ht
            (hp q (hperm.mem_iff.1 hq)))
      · intro hnd k
        apply option_int_ext
        · rw [isSome_dictGet_foldl, isSome_dictGet_any tls_stats k]
          have h0 : (dictGet [] k).isSome = false := rfl
          rw [h0, Bool.false_or]
          exact any_perm hperm _
        · show dictGetD ((sortDesc tls_stats).foldl
              (fun d q => dictIncr d q.1 q.2) []) k = dictGetD tls_stats k
          rw [dictGetD_foldl, sumAt_perm hperm k,
            sumAt_eq_dictGetD_of_nodup _ _ hnd]
          simp [dictGetD, dictGet]

theorem export_roundtrip_witness :
    (export_zone_lines "zone" "tag" [("TLSv1.3", 5)]).length = 1 :=
  (export_roundtrip "zone" "tag" [("TLSv1.3", 5)] (by decide) (by decide)
    (by decide)).1

end CFTLS
